import Mathlib

/-!
# Buttercup desktop: the IPC handlers of `source/app/events.js`

A shallow embedding of the message handlers of `source/app/events.js`
(`convertGroups`, `convertEntries`, and the handlers registered for
`entries.create`, `entries.find` and `entries.update`), followed by the
properties the specification states about them.

JavaScript strings are Lean `String`s.  A plain JavaScript object that is used
as a string-to-string map is the list of its own enumerable properties, in the
order `for ... in` enumerates them.  A method call on such an object looks the
method up on the object first: an own property named `hasOwnProperty` hides
the method of `Object.prototype`, and calling it raises a `TypeError`.  A
handler that raises leaves the entry as mutated so far and assigns no
`returnValue`.  The classes `Entry`, `Group` and `Manager`
are not part of `events.js`; the parts the handlers call are modelled from the
specification and marked so.
-/

set_option autoImplicit false

namespace Buttercup

/-! ## JavaScript strings -/

/-- The code points `String.prototype.trim` removes: ECMAScript `WhiteSpace`
and `LineTerminator`. -/
def isWhiteSpace (c : Char) : Bool :=
  decide (c.toNat ∈ [9, 10, 11, 12, 13, 32, 160, 5760, 8232, 8233, 8239, 8287, 12288, 65279])
    || (decide (8192 ≤ c.toNat) && decide (c.toNat ≤ 8202))

/-- Leading white space removed. -/
def trimStartChars (cs : List Char) : List Char :=
  cs.dropWhile isWhiteSpace

/-- Trailing white space removed. -/
def trimEndChars (cs : List Char) : List Char :=
  (cs.reverse.dropWhile isWhiteSpace).reverse

/-- The method `String.prototype.trim`. -/
def trim (s : String) : String :=
  ⟨trimEndChars (trimStartChars s.data)⟩

/-- Does `s` begin with `pat`? -/
def startsWith : List Char → List Char → Bool
  | [], _ => true
  | _ :: _, [] => false
  | p :: ps, c :: cs => p == c && startsWith ps cs

/-- The method `String.prototype.replace` with a string pattern, on characters: only the
first occurrence of `pat` is replaced. -/
def replaceChars (pat rep : List Char) : List Char → List Char
  | [] => if pat.isEmpty then rep else []
  | c :: cs =>
    if startsWith pat (c :: cs) then rep ++ (c :: cs).drop pat.length
    else c :: replaceChars pat rep cs

/-- The call `s.replace(pat, rep)` for a string pattern `pat` (the replacement strings
used in `events.js` contain no `$`). -/
def replace (s pat rep : String) : String :=
  ⟨replaceChars pat.data rep.data s.data⟩

/-! ## Plain objects used as maps -/

/-- An exception raised while a handler runs. -/
inductive JSError where
  | typeError
deriving DecidableEq, Repr

deriving instance DecidableEq for Except

/-- A plain object with string values: its own enumerable properties, in
enumeration order. -/
abbrev JSObject := List (String × String)

/-- The own keys of an object, `Object.keys(o)`. -/
def keys (o : JSObject) : List String :=
  o.map Prod.fst

/-- The object has an own property named `hasOwnProperty`, a string, which
hides the method inherited from `Object.prototype`. -/
def shadowsHasOwnProperty (o : JSObject) : Bool :=
  decide ("hasOwnProperty" ∈ keys o)

/-- The call `o.hasOwnProperty(k)`.  The property `hasOwnProperty` is looked
up on `o` itself first: when `o` has an own property of that name, its value
is a string, and calling it raises a `TypeError`.  Otherwise the method of
`Object.prototype` answers whether `k` is an own property. -/
def hasOwnProperty (o : JSObject) (k : String) : Except JSError Bool :=
  if shadowsHasOwnProperty o then .error .typeError else .ok (decide (k ∈ keys o))

/-- The property names every plain object inherits from `Object.prototype`. -/
def objectPrototypeNames : List String :=
  ["constructor", "hasOwnProperty", "isPrototypeOf", "propertyIsEnumerable",
   "toLocaleString", "toString", "valueOf", "__proto__",
   "__defineGetter__", "__defineSetter__", "__lookupGetter__", "__lookupSetter__"]

/-- The operator `k in o` for a plain object `o`: true for an own property and
for a property found on the prototype chain. -/
def jsIn (k : String) (o : JSObject) : Bool :=
  decide (k ∈ keys o) || decide (k ∈ objectPrototypeNames)

/-- Assignment `o[k] = v`: the value is replaced in place when `k` is already a
property, and the property is appended otherwise (keys that are array indices,
which JavaScript enumerates first, are not treated apart). -/
def assign (k v : String) : JSObject → JSObject
  | [] => [(k, v)]
  | (k0, v0) :: rest => if k0 = k then (k, v) :: rest else (k0, v0) :: assign k v rest

/-- The statement `delete o[k]`. -/
def remove (k : String) (o : JSObject) : JSObject :=
  o.filter (fun p => p.1 != k)

/-! ## Entries -/

/-- The canonical properties, `properties` in the `entries.update` handler. -/
def properties : List String := ["title", "username", "password"]

/-- Modelled from the spec: the class `Entry` is not in `events.js`.  An entry
has an identifier, an ordered map of named string properties and a metadata
map from string keys to string values (section 3). -/
structure Entry where
  id : String
  properties : JSObject
  meta : JSObject
deriving DecidableEq, Repr

/-- The transport record of an entry (section 6): `parentID` is present only
when the record is produced by `convertEntries`. -/
structure EntryRecord where
  id : String
  properties : JSObject
  meta : JSObject
  parentID : Option String
deriving DecidableEq, Repr

namespace Entry

/-- Modelled from the spec: `getID()`. -/
def getID (e : Entry) : String := e.id

/-- Modelled from the spec: `getProperty(name) -> string` (section 4.1), direct
map access; a property that was never set reads as the empty string (the
scenario of section 8 shows `password: ""` for an entry created with a title
only). -/
def getProperty (e : Entry) (name : String) : String :=
  (e.properties.lookup name).getD ""

/-- Modelled from the spec: `setProperty(name, value)` (section 4.1), direct
map mutation; every name is accepted. -/
def setProperty (e : Entry) (name value : String) : Entry :=
  { e with properties := assign name value e.properties }

/-- Modelled from the spec: `getMeta(key) -> string|absent` (section 4.1). -/
def getMeta (e : Entry) (key : String) : Option String :=
  e.meta.lookup key

/-- Modelled from the spec: `setMeta(key, value)` (section 4.1); the direct
setter accepts any string. -/
def setMeta (e : Entry) (key value : String) : Entry :=
  { e with meta := assign key value e.meta }

/-- Modelled from the spec: `deleteMeta(key)` (section 4.1) removes the key if
present; an absent key is a no-op. -/
def deleteMeta (e : Entry) (key : String) : Entry :=
  { e with meta := remove key e.meta }

/-- Modelled from the spec: `toObject()`, the transport record of section 6:
the identifier, the properties `title, username, password, ...` (the three
canonical ones always present, then every other stored property) and the full
metadata map.  `parentID` is not set by the entry itself (section 4.1). -/
def toObject (e : Entry) : EntryRecord :=
  { id := e.id
    properties :=
      Buttercup.properties.map (fun name => (name, e.getProperty name))
        ++ e.properties.filter (fun p => decide (p.1 ∉ Buttercup.properties))
    meta := e.meta
    parentID := none }

end Entry

/-! ## The handler `entries.update` -/

/-- The argument of `entries.update`: `arg.id`, `arg.changed`,
`arg._nestedChanges` (both optional) and `arg._previousAttributes.meta`. -/
structure UpdateArg where
  id : String
  changed : Option JSObject
  nestedChanges : Option JSObject
  previousAttributesMeta : JSObject
deriving DecidableEq, Repr

/-- Body of `properties.forEach(function (prop) ...)`, lines 186-190: the
entry after the iteration, or the exception the call of line 187 raises. -/
def propertyStep (propertiesChanged : JSObject) (entry : Entry) (prop : String) :
    Except JSError Entry :=
  match hasOwnProperty propertiesChanged prop with
  | .error err => .error err
  | .ok own =>
    match propertiesChanged.lookup prop with
    | some value =>
      if own && value != entry.getProperty prop then .ok (entry.setProperty prop value)
      else .ok entry
    | none => .ok entry

/-- The metadata key a key of `_nestedChanges` stands for, line 195:
`metaKey.replace("meta.", "").trim()`. -/
def metaKeyOf (metaKey : String) : String :=
  trim (replace metaKey "meta." "")

/-- Body of `for (var metaKey in metaChanged)`, lines 193-201; `item.2` is
`metaChanged[metaKey]`.  The result is the entry after the iteration, or the
exception the call of line 194 raises. -/
def metaStep (metaChanged : JSObject) (entry : Entry) (item : String × String) :
    Except JSError Entry :=
  match hasOwnProperty metaChanged item.1 with
  | .error err => .error err
  | .ok own =>
    if own then
      let key := metaKeyOf item.1
      let value := trim item.2
      if decide (key.length > 0) && decide (value.length > 0)
          && some value != entry.getMeta key then
        .ok (entry.setMeta key value)
      else .ok entry
    else .ok entry

/-- Body of `for (var removedMetaKey in entryObject.meta)`, lines 204-208: the
entry after the iteration, or the exception the call of line 205 raises. -/
def removedStep (entryObjectMeta removedMetaList : JSObject) (entry : Entry)
    (item : String × String) : Except JSError Entry :=
  match hasOwnProperty entryObjectMeta item.1 with
  | .error err => .error err
  | .ok own =>
    if own && !(jsIn item.1 removedMetaList) then .ok (entry.deleteMeta item.1)
    else .ok entry

/-- A loop over `items` whose body mutates the entry in place: the entry when
the loop ends, and the exception that ended it, if one was raised. -/
def forEach {α : Type} (step : Entry → α → Except JSError Entry) :
    List α → Entry → Entry × Option JSError
  | [], entry => (entry, none)
  | item :: rest, entry =>
    match step entry item with
    | .ok next => forEach step rest next
    | .error err => (entry, some err)

/-- The handler registered for `entries.update`, lines 177-211, run on the entry
that `manager.findEntry(arg.id)` found.  The entry is mutated in place: the
result is the entry after the call, together with the record assigned to
`e.returnValue` at line 210, or with the exception that ended the handler
before that line. -/
def entriesUpdate (entry : Entry) (arg : UpdateArg) : Entry × Except JSError EntryRecord :=
  let propertiesChanged := arg.changed.getD []
  let metaChanged := arg.nestedChanges.getD []
  let removedMetaList := arg.previousAttributesMeta
  let entryObject := entry.toObject
  match forEach (propertyStep propertiesChanged) properties entry with
  | (entry1, some err) => (entry1, .error err)
  | (entry1, none) =>
    match forEach (metaStep metaChanged) metaChanged entry1 with
    | (entry2, some err) => (entry2, .error err)
    | (entry2, none) =>
      match forEach (removedStep entryObject.meta removedMetaList) entryObject.meta entry2 with
      | (entry3, some err) => (entry3, .error err)
      | (entry3, none) => (entry3, .ok entry3.toObject)

/-- An item of `_nestedChanges` passes the length tests of line 197: key and
value are both non-empty after trimming. -/
def applicable (item : String × String) : Bool :=
  decide ((metaKeyOf item.1).length > 0) && decide ((trim item.2).length > 0)

/-- The effect of one item of `_nestedChanges` on the metadata map. -/
def applyItem (m : JSObject) (item : String × String) : JSObject :=
  if applicable item then assign (metaKeyOf item.1) (trim item.2) m else m

/-- The effect of one canonical property on the property map. -/
def applyProperty (propertiesChanged : JSObject) (ps : JSObject) (prop : String) : JSObject :=
  match propertiesChanged.lookup prop with
  | some value => if value != (ps.lookup prop).getD "" then assign prop value ps else ps
  | none => ps

/-- The test of line 205 on a key of the snapshot `entryObject.meta`: the key
is kept unless it is an own key of the snapshot that is not `in`
`removedMetaList`. -/
def kept (entryObjectMeta removedMetaList : JSObject) (k : String) : Bool :=
  !(decide (k ∈ keys entryObjectMeta) && !(jsIn k removedMetaList))

/-- None of the three objects whose `hasOwnProperty` the handler calls
(`changed`, `_nestedChanges` and the metadata of the snapshot) has an own
property of that name. -/
def methodsIntact (entry : Entry) (arg : UpdateArg) : Bool :=
  !(shadowsHasOwnProperty (arg.changed.getD []))
    && !(shadowsHasOwnProperty (arg.nestedChanges.getD []))
    && !(shadowsHasOwnProperty entry.meta)

/-- The entry the three loops of `entries.update` leave behind when none of
them raises. -/
def updatedEntry (entry : Entry) (arg : UpdateArg) : Entry :=
  { id := entry.id
    properties := properties.foldl (applyProperty (arg.changed.getD [])) entry.properties
    meta := (((arg.nestedChanges.getD []).foldl applyItem entry.meta).filter
      (fun p => kept entry.meta arg.previousAttributesMeta p.1)) }

/-! ## Groups and the conversions to transport records -/

/-- Modelled from the spec: the class `Group` is not in `events.js`.  A group
has an identifier, a title, its child groups and its child entries, both in
insertion order (section 3). -/
inductive Group where
  | mk (id : String) (title : String) (groups : List Group) (entries : List Entry)

/-- The transport record of a group (section 6): identifier, title and the
array `groups`. -/
inductive GroupRecord where
  | mk (id : String) (title : String) (groups : List GroupRecord)

namespace GroupRecord

/-- Field `id`. -/
def id : GroupRecord → String
  | .mk i _ _ => i

/-- Field `title`. -/
def title : GroupRecord → String
  | .mk _ t _ => t

/-- Field `groups`. -/
def groups : GroupRecord → List GroupRecord
  | .mk _ _ gs => gs

/-- Assignment `record.groups = gs`. -/
def setGroups : GroupRecord → List GroupRecord → GroupRecord
  | .mk i t _, gs => .mk i t gs

end GroupRecord

namespace Group

/-- Modelled from the spec: `getID()`. -/
def getID : Group → String
  | .mk i _ _ _ => i

/-- Modelled from the spec: the display title. -/
def getTitle : Group → String
  | .mk _ t _ _ => t

/-- Modelled from the spec: `getGroups()`, the child groups in insertion order
(section 4.2). -/
def getGroups : Group → List Group
  | .mk _ _ gs _ => gs

/-- Modelled from the spec: `getEntries()`, the child entries in insertion
order (section 4.2). -/
def getEntries : Group → List Entry
  | .mk _ _ _ es => es

/-- Modelled from the spec: `toObject()` serializes the identifier and the
title and does not include the children (section 4.2); the array `groups` is
attached by the caller. -/
def toObject : Group → GroupRecord
  | .mk i t _ _ => .mk i t []

end Group

mutual
/-- The loop `groups.forEach(function (group) ...)` of `convertGroups`, lines
17-21, with the array `parsedGroups` built so far. -/
def convertGroupsLoop : List Group → List GroupRecord → List GroupRecord
  | [], parsedGroups => parsedGroups
  | group :: rest, parsedGroups =>
    convertGroupsLoop rest (parsedGroups ++ [parsedGroupOf group])
/-- The record `parsedGroup` of one iteration, lines 18-19: `group.toObject()`
with `groups` set to the converted child groups. -/
def parsedGroupOf : Group → GroupRecord
  | .mk i t gs es => (Group.mk i t gs es).toObject.setGroups (convertGroupsLoop gs [])
end

/-- The function `convertGroups(groups)`, lines 14-24. -/
def convertGroups (groups : List Group) : List GroupRecord :=
  convertGroupsLoop groups []

/-- The function `convertEntries(entries, parentGroup)`, lines 26-32. -/
def convertEntries (entries : List Entry) (parentGroup : Group) : List EntryRecord :=
  entries.map (fun entry =>
    let parsedEntry := entry.toObject
    { parsedEntry with parentID := some parentGroup.getID })

mutual
/-- A group with the entries of every group of its subtree removed. -/
def withoutEntries : Group → Group
  | .mk i t gs _ => .mk i t (withoutEntriesList gs) []
/-- The same, for a list of groups. -/
def withoutEntriesList : List Group → List Group
  | [] => []
  | g :: rest => withoutEntries g :: withoutEntriesList rest
end

/-! ## The handlers `entries.find` and `entries.create` -/

/-- A value a handler assigns to `returnValue`. -/
inductive Response where
  | null
  | record (r : EntryRecord)
deriving DecidableEq, Repr

/-- The event object a handler receives: `returnValue` is `none` until the
handler assigns it. -/
structure Event where
  returnValue : Option Response
deriving DecidableEq, Repr

mutual
/-- Modelled from the spec: search of the subtree of one group for an entry, depth
first (section 4.3); absent when nothing matches. -/
def findEntryInGroup (id : String) : Group → Option Entry
  | .mk _ _ gs es =>
    match es.find? (fun entry => entry.id == id) with
    | some entry => some entry
    | none => findEntryInGroups id gs
/-- Modelled from the spec: `Manager.findEntry(id)` over the top-level groups
of the active workspace (section 4.3). -/
def findEntryInGroups (id : String) : List Group → Option Entry
  | [] => none
  | g :: rest =>
    match findEntryInGroup id g with
    | some entry => some entry
    | none => findEntryInGroups id rest
end

mutual
/-- Modelled from the spec: search of the subtree of one group for a group, depth
first (section 4.3); absent when nothing matches. -/
def findGroupInGroup (id : String) : Group → Option Group
  | .mk i t gs es => if i == id then some (.mk i t gs es) else findGroupInGroups id gs
/-- Modelled from the spec: `Manager.findGroup(id)` over the top-level groups
of the active workspace (section 4.3). -/
def findGroupInGroups (id : String) : List Group → Option Group
  | [] => none
  | g :: rest =>
    match findGroupInGroup id g with
    | some found => some found
    | none => findGroupInGroups id rest
end

/-- The handler registered for `entries.find`, lines 172-174:
`e.returnValue = manager.findEntry(arg).toObject()`.  `findEntry` is the
lookup of the manager; calling `toObject` on an absent result raises a
`TypeError` before `returnValue` is assigned. -/
def entriesFind (findEntry : String → Option Entry) (e : Event) (arg : String) :
    Except JSError Event :=
  match findEntry arg with
  | some entry => .ok { e with returnValue := some (.record entry.toObject) }
  | none => .error .typeError

/-- The argument of `entries.create`: `arg.collection.options.parentID`
(`none` when the request carries none) and `arg.attributes.title`. -/
structure CreateArg where
  parentID : Option String
  title : String
deriving DecidableEq, Repr

/-- The `try` block of `entries.create`, lines 158-160.  `findGroup` and
`createEntry` are the operations of the manager and of the group found, on an
archive state `σ`; calling `createEntry` on an absent group raises a
`TypeError`. -/
def entriesCreateTry {σ : Type} (findGroup : σ → String → Option Group)
    (createEntry : σ → Group → String → σ × Entry)
    (archive : σ) (e : Event) (arg : CreateArg) : Except JSError (σ × Event) :=
  match arg.parentID.bind (findGroup archive) with
  | some group =>
    let created := createEntry archive group arg.title
    .ok (created.1, { e with returnValue := some (.record created.2.toObject) })
  | none => .error .typeError

/-- The handler registered for `entries.create`, lines 156-164; the comments
of lines 154-155 above it (`Get all entries`, `Create a group`) do not
describe it: it creates an entry under the group found.  In
`catch (e) { e.returnValue = null; }` the name `e` is the caught exception,
which shadows the event: the assignment sets a property of the exception
object, and the event and the archive are left as they were. -/
def entriesCreate {σ : Type} (findGroup : σ → String → Option Group)
    (createEntry : σ → Group → String → σ × Entry)
    (archive : σ) (e : Event) (arg : CreateArg) : σ × Event :=
  match entriesCreateTry findGroup createEntry archive e arg with
  | .ok result => result
  | .error _ => (archive, e)

/-! ## Lemmas on objects -/

theorem lookup_cons_eq (k v : String) (rest : JSObject) (a : String) :
    List.lookup a ((k, v) :: rest) = if a = k then some v else List.lookup a rest := by
  by_cases h : a = k
  · subst h; simp [List.lookup]
  · have : (a == k) = false := by simpa using h
    simp [List.lookup, this, h]

theorem lookup_eq_none_iff_not_mem_keys (o : JSObject) (k : String) :
    o.lookup k = none ↔ k ∉ keys o := by
  induction o with
  | nil => simp [keys]
  | cons p rest ih =>
    obtain ⟨k0, v0⟩ := p
    rw [lookup_cons_eq]
    by_cases h : k = k0
    · simp [h, keys]
    · simp only [h, if_false, ih]
      simp [keys, h]

theorem lookup_isSome_iff_mem_keys (o : JSObject) (k : String) :
    (o.lookup k).isSome = true ↔ k ∈ keys o := by
  rw [← not_iff_not, ← lookup_eq_none_iff_not_mem_keys]
  cases o.lookup k <;> simp

theorem lookup_assign_self (k v : String) (o : JSObject) :
    (assign k v o).lookup k = some v := by
  induction o with
  | nil => simp [assign, lookup_cons_eq]
  | cons p rest ih =>
    obtain ⟨k0, v0⟩ := p
    by_cases h : k0 = k
    · simp [assign, h, lookup_cons_eq]
    · have h2 : ¬ k = k0 := fun e => h e.symm
      simp [assign, h, lookup_cons_eq, h2, ih]

theorem lookup_assign_ne (k v a : String) (o : JSObject) (hne : a ≠ k) :
    (assign k v o).lookup a = o.lookup a := by
  induction o with
  | nil => simp [assign, lookup_cons_eq, hne]
  | cons p rest ih =>
    obtain ⟨k0, v0⟩ := p
    by_cases h : k0 = k
    · subst h; simp [assign, lookup_cons_eq, hne]
    · simp [assign, h, lookup_cons_eq, ih]

theorem mem_keys_assign (k v a : String) (o : JSObject) :
    a ∈ keys (assign k v o) ↔ a = k ∨ a ∈ keys o := by
  induction o with
  | nil => simp [assign, keys]
  | cons p rest ih =>
    obtain ⟨k0, v0⟩ := p
    by_cases h : k0 = k
    · subst h; simp [assign, keys]
    · simp only [assign, h, if_false]
      simp only [keys, List.map_cons, List.mem_cons] at ih ⊢
      rw [ih]; tauto

theorem assign_of_lookup (k v : String) (o : JSObject) (h : o.lookup k = some v) :
    assign k v o = o := by
  induction o with
  | nil => simp at h
  | cons p rest ih =>
    obtain ⟨k0, v0⟩ := p
    rw [lookup_cons_eq] at h
    by_cases hk : k = k0
    · subst hk; simp at h; simp [assign, h]
    · have hk2 : ¬ k0 = k := fun e => hk e.symm
      simp [hk] at h
      simp [assign, hk2, ih h]

theorem assign_assign (k v w : String) (o : JSObject) :
    assign k v (assign k w o) = assign k v o := by
  induction o with
  | nil => simp [assign]
  | cons p rest ih =>
    obtain ⟨k0, v0⟩ := p
    by_cases h : k0 = k
    · simp [assign, h]
    · simp [assign, h, ih]

theorem assign_comm (k1 v1 k2 v2 : String) (o : JSObject) (hne : k1 ≠ k2)
    (hmem : k1 ∈ keys o ∨ k2 ∈ keys o) :
    assign k1 v1 (assign k2 v2 o) = assign k2 v2 (assign k1 v1 o) := by
  induction o with
  | nil => simp [keys] at hmem
  | cons p rest ih =>
    obtain ⟨k0, v0⟩ := p
    by_cases h1 : k0 = k1
    · subst h1
      simp [assign, hne]
    · by_cases h2 : k0 = k2
      · subst h2
        simp [assign, h1]
      · have hmem2 : k1 ∈ keys rest ∨ k2 ∈ keys rest := by
          simp only [keys, List.map_cons, List.mem_cons] at hmem ⊢
          rcases hmem with (h | h) | (h | h)
          · exact absurd h.symm h1
          · exact Or.inl h
          · exact absurd h.symm h2
          · exact Or.inr h
        simp [assign, h1, h2, ih hmem2]

theorem lookup_remove (k a : String) (o : JSObject) :
    (remove k o).lookup a = if a = k then none else o.lookup a := by
  induction o with
  | nil => simp [remove]
  | cons p rest ih =>
    obtain ⟨k0, v0⟩ := p
    unfold remove at ih ⊢
    by_cases h : k0 = k
    · subst h
      simp only [List.filter_cons, bne_self_eq_false, Bool.false_eq_true, if_false, ih,
        lookup_cons_eq]
      by_cases ha : a = k0 <;> simp [ha]
    · have : (k0 != k) = true := by simpa using h
      simp only [List.filter_cons, this, if_true, lookup_cons_eq, ih]
      by_cases ha : a = k0
      · subst ha; simp [h]
      · simp [ha]

theorem mem_keys_remove (k a : String) (o : JSObject) :
    a ∈ keys (remove k o) ↔ a ≠ k ∧ a ∈ keys o := by
  simp only [keys, remove, List.mem_map, List.mem_filter]
  constructor
  · rintro ⟨p, ⟨hp, hk⟩, rfl⟩
    exact ⟨by simpa using hk, p, hp, rfl⟩
  · rintro ⟨hne, p, hp, rfl⟩
    exact ⟨p, ⟨hp, by simpa using hne⟩, rfl⟩

theorem remove_assign_comm (k v d : String) (o : JSObject) (hne : k ≠ d) :
    remove d (assign k v o) = assign k v (remove d o) := by
  induction o with
  | nil =>
    have : (k != d) = true := by simpa using hne
    simp [assign, remove, this]
  | cons p rest ih =>
    obtain ⟨k0, v0⟩ := p
    unfold remove at ih ⊢
    by_cases h : k0 = k
    · subst h
      have : (k0 != d) = true := by simpa using hne
      simp [assign, this]
    · by_cases hd : k0 = d
      · subst hd
        simp [assign, h, ih]
      · have : (k0 != d) = true := by simpa using hd
        simp [assign, h, this, ih]

theorem remove_of_not_mem (k : String) (o : JSObject) (h : k ∉ keys o) : remove k o = o := by
  unfold remove
  rw [List.filter_eq_self]
  intro p hp
  have : p.1 ≠ k := fun e => h (by rw [← e]; exact List.mem_map_of_mem _ hp)
  simpa using this

theorem lookup_filter_key (f : String → Bool) (o : JSObject) (a : String) (h : f a = true) :
    (o.filter (fun p => f p.1)).lookup a = o.lookup a := by
  induction o with
  | nil => simp
  | cons p rest ih =>
    obtain ⟨k0, v0⟩ := p
    by_cases hf : f k0 = true
    · simp only [List.filter_cons, hf, if_true, lookup_cons_eq, ih]
    · have hne : a ≠ k0 := fun e => hf (e ▸ h)
      simp only [List.filter_cons, hf, if_false, lookup_cons_eq, hne]
      exact ih

theorem lookup_filter_key_none (f : String → Bool) (o : JSObject) (a : String)
    (h : f a = false) : (o.filter (fun p => f p.1)).lookup a = none := by
  rw [lookup_eq_none_iff_not_mem_keys]
  simp only [keys, List.mem_map, List.mem_filter]
  rintro ⟨p, ⟨_, hp⟩, rfl⟩
  rw [h] at hp
  exact Bool.false_ne_true hp

theorem assign_filter_comm (f : String → Bool) (k v : String) (o : JSObject)
    (h : f k = true) :
    assign k v (o.filter (fun p => f p.1)) = (assign k v o).filter (fun p => f p.1) := by
  induction o with
  | nil => simp [assign, h]
  | cons p rest ih =>
    obtain ⟨k0, v0⟩ := p
    by_cases hk : k0 = k
    · subst hk
      simp [assign, h]
    · by_cases hf : f k0 = true
      · simp [assign, hk, hf, ih]
      · simp [assign, hk, hf, ih]

theorem lookup_append (o1 o2 : JSObject) (a : String) :
    (o1 ++ o2).lookup a = (o1.lookup a).orElse (fun _ => o2.lookup a) := by
  induction o1 with
  | nil => simp
  | cons p rest ih =>
    obtain ⟨k0, v0⟩ := p
    by_cases h : a = k0
    · simp [lookup_cons_eq, h]
    · simp [lookup_cons_eq, h, ih]

/-! ## Strings -/

theorem length_pos_iff_ne_empty (s : String) : s.length > 0 ↔ s ≠ "" := by
  obtain ⟨cs⟩ := s
  cases cs with
  | nil => simp [String.length]
  | cons c rest =>
    simp only [String.length, List.length_cons, gt_iff_lt, Nat.zero_lt_succ, true_iff]
    intro h
    have := congrArg String.data h
    simp at this

theorem applicable_iff (item : String × String) :
    applicable item = true ↔ metaKeyOf item.1 ≠ "" ∧ trim item.2 ≠ "" := by
  unfold applicable
  rw [Bool.and_eq_true, decide_eq_true_iff, decide_eq_true_iff,
    length_pos_iff_ne_empty, length_pos_iff_ne_empty]

theorem startsWith_append (pat s : List Char) : startsWith pat (pat ++ s) = true := by
  induction pat with
  | nil => simp [startsWith]
  | cons p rest ih => simp [startsWith, ih]

theorem replaceChars_append (pat rep s : List Char) (h : pat ≠ []) :
    replaceChars pat rep (pat ++ s) = rep ++ s := by
  cases pat with
  | nil => exact absurd rfl h
  | cons p rest =>
    have hs := startsWith_append (p :: rest) s
    simp only [List.cons_append] at hs ⊢
    simp only [replaceChars, hs, if_true, List.length_cons, List.drop_succ_cons]
    rw [List.drop_left]

/-- A key written `"meta." ++ k` stands for the metadata key `trim k`. -/
theorem metaKeyOf_meta_append (k : String) : metaKeyOf ("meta." ++ k) = trim k := by
  unfold metaKeyOf replace
  have h : ("meta." ++ k).data = "meta.".data ++ k.data := String.data_append _ _
  rw [h, replaceChars_append _ _ _ (by decide)]
  rfl

/-! ## The metadata loop -/

theorem lookup_applyItem_ne (m : JSObject) (item : String × String) (a : String)
    (h : applicable item = true → metaKeyOf item.1 ≠ a) :
    (applyItem m item).lookup a = m.lookup a := by
  unfold applyItem
  by_cases ha : applicable item = true
  · rw [if_pos ha, lookup_assign_ne _ _ _ _ (fun e => h ha e.symm)]
  · rw [if_neg ha]

theorem lookup_foldl_applyItem_frame (l : JSObject) (m : JSObject) (a : String)
    (h : ∀ item ∈ l, applicable item = true → metaKeyOf item.1 ≠ a) :
    (l.foldl applyItem m).lookup a = m.lookup a := by
  induction l generalizing m with
  | nil => rfl
  | cons q rest ih =>
    simp only [List.foldl_cons]
    rw [ih _ (fun item hi => h item (List.mem_cons_of_mem _ hi)),
      lookup_applyItem_ne _ _ _ (h q (List.mem_cons_self _ _))]

theorem lookup_foldl_applyItem_unique (l : JSObject) (m : JSObject) (item0 : String × String)
    (happ : applicable item0 = true)
    (huniq : ∀ item ∈ l, metaKeyOf item.1 = metaKeyOf item0.1 → item = item0)
    (h : item0 ∈ l ∨ m.lookup (metaKeyOf item0.1) = some (trim item0.2)) :
    (l.foldl applyItem m).lookup (metaKeyOf item0.1) = some (trim item0.2) := by
  induction l generalizing m with
  | nil =>
    rcases h with h | h
    · simp at h
    · exact h
  | cons q rest ih =>
    simp only [List.foldl_cons]
    have huniq2 : ∀ item ∈ rest, metaKeyOf item.1 = metaKeyOf item0.1 → item = item0 :=
      fun item hi => huniq item (List.mem_cons_of_mem _ hi)
    by_cases hq : metaKeyOf q.1 = metaKeyOf item0.1
    · have hq0 : q = item0 := huniq q (List.mem_cons_self _ _) hq
      apply ih _ huniq2
      right
      rw [hq0]
      unfold applyItem
      rw [if_pos happ, lookup_assign_self]
    · apply ih _ huniq2
      rcases h with h | h
      · left
        rcases List.mem_cons.mp h with h0 | h0
        · exact absurd (by rw [h0]) hq
        · exact h0
      · right
        rw [lookup_applyItem_ne _ _ _ (fun _ => hq)]
        exact h

theorem mem_keys_applyItem (m : JSObject) (item : String × String) (a : String) :
    a ∈ keys (applyItem m item)
      ↔ a ∈ keys m ∨ (applicable item = true ∧ metaKeyOf item.1 = a) := by
  unfold applyItem
  by_cases ha : applicable item = true
  · rw [if_pos ha, mem_keys_assign]
    constructor
    · rintro (h | h)
      · exact Or.inr ⟨ha, h.symm⟩
      · exact Or.inl h
    · rintro (h | ⟨_, h⟩)
      · exact Or.inr h
      · exact Or.inl h.symm
  · rw [if_neg ha]
    constructor
    · exact Or.inl
    · rintro (h | ⟨h, _⟩)
      · exact h
      · exact absurd h ha

theorem mem_keys_foldl_applyItem (l : JSObject) (m : JSObject) (a : String) :
    a ∈ keys (l.foldl applyItem m)
      ↔ a ∈ keys m ∨ ∃ item ∈ l, applicable item = true ∧ metaKeyOf item.1 = a := by
  induction l generalizing m with
  | nil => simp
  | cons q rest ih =>
    simp only [List.foldl_cons]
    rw [ih, mem_keys_applyItem]
    constructor
    · rintro ((h | h) | ⟨item, hi, h⟩)
      · exact Or.inl h
      · exact Or.inr ⟨q, List.mem_cons_self _ _, h⟩
      · exact Or.inr ⟨item, List.mem_cons_of_mem _ hi, h⟩
    · rintro (h | ⟨item, hi, h⟩)
      · exact Or.inl (Or.inl h)
      · rcases List.mem_cons.mp hi with h0 | h0
        · subst h0; exact Or.inl (Or.inr h)
        · exact Or.inr ⟨item, h0, h⟩

theorem applyItem_filter_comm (f : String → Bool) (m : JSObject) (item : String × String)
    (h : applicable item = true → f (metaKeyOf item.1) = true) :
    applyItem (m.filter (fun p => f p.1)) item = (applyItem m item).filter (fun p => f p.1) := by
  unfold applyItem
  by_cases ha : applicable item = true
  · rw [if_pos ha, if_pos ha, assign_filter_comm f _ _ _ (h ha)]
  · rw [if_neg ha, if_neg ha]

theorem foldl_applyItem_filter_comm (f : String → Bool) (l : JSObject) (m : JSObject)
    (h : ∀ item ∈ l, applicable item = true → f (metaKeyOf item.1) = true) :
    l.foldl applyItem (m.filter (fun p => f p.1))
      = (l.foldl applyItem m).filter (fun p => f p.1) := by
  induction l generalizing m with
  | nil => rfl
  | cons q rest ih =>
    simp only [List.foldl_cons]
    rw [applyItem_filter_comm f m q (h q (List.mem_cons_self _ _)),
      ih _ (fun item hi => h item (List.mem_cons_of_mem _ hi))]

theorem applyItem_pos (m : JSObject) (x : String × String) (hx : applicable x = true) :
    applyItem m x = assign (metaKeyOf x.1) (trim x.2) m := by
  unfold applyItem; rw [if_pos hx]

theorem applyItem_neg (m : JSObject) (x : String × String) (hx : ¬ applicable x = true) :
    applyItem m x = m := by
  unfold applyItem; rw [if_neg hx]

theorem applyItem_absorb (l : JSObject) (m : JSObject) (x : String × String)
    (h : ∀ item ∈ l, applicable item = true → metaKeyOf item.1 ∈ keys m) :
    applyItem (l.foldl applyItem (applyItem m x)) x = applyItem (l.foldl applyItem m) x := by
  by_cases hx : applicable x = true
  · induction l generalizing m with
    | nil =>
      simp only [List.foldl_nil]
      rw [applyItem_pos _ _ hx, applyItem_pos _ _ hx, assign_assign]
    | cons y rest ih =>
      simp only [List.foldl_cons]
      have hrest : ∀ item ∈ rest, applicable item = true → metaKeyOf item.1 ∈ keys m :=
        fun item hi => h item (List.mem_cons_of_mem _ hi)
      by_cases hy : applicable y = true
      · by_cases hk : metaKeyOf y.1 = metaKeyOf x.1
        · have : applyItem (applyItem m x) y = applyItem m y := by
            rw [applyItem_pos _ _ hx, applyItem_pos _ _ hy, applyItem_pos _ _ hy, hk,
              assign_assign]
          rw [this]
        · have hmem : metaKeyOf y.1 ∈ keys m := h y (List.mem_cons_self _ _) hy
          have : applyItem (applyItem m x) y = applyItem (applyItem m y) x := by
            rw [applyItem_pos _ _ hx, applyItem_pos _ _ hy, applyItem_pos _ _ hx,
              applyItem_pos _ _ hy]
            exact assign_comm _ _ _ _ _ hk (Or.inl hmem)
          rw [this]
          apply ih
          intro item hi ha
          rw [mem_keys_applyItem]
          exact Or.inl (hrest item hi ha)
      · rw [applyItem_neg _ _ hy, applyItem_neg _ _ hy]
        exact ih _ hrest
  · rw [applyItem_neg _ _ hx, applyItem_neg _ _ hx, applyItem_neg _ _ hx]

/-- Running the metadata loop a second time on its own result changes
nothing. -/
theorem foldl_applyItem_idem (l : JSObject) (m : JSObject) :
    l.foldl applyItem (l.foldl applyItem m) = l.foldl applyItem m := by
  induction l using List.reverseRecOn generalizing m with
  | nil => rfl
  | append_singleton rest x ih =>
    simp only [List.foldl_append, List.foldl_cons, List.foldl_nil]
    rw [applyItem_absorb rest (rest.foldl applyItem m) x, ih]
    intro item hi ha
    rw [mem_keys_foldl_applyItem]
    exact Or.inr ⟨item, hi, ha, rfl⟩

/-! ## The property loop -/

theorem lookup_applyProperty_frame (c ps : JSObject) (prop a : String)
    (h : a ≠ prop ∨ c.lookup a = none) :
    (applyProperty c ps prop).lookup a = ps.lookup a := by
  unfold applyProperty
  cases hc : c.lookup prop with
  | none => rfl
  | some v =>
    have hne : a ≠ prop := by
      rcases h with h | h
      · exact h
      · intro e; rw [e, hc] at h; exact Option.noConfusion h
    simp only
    split
    · exact lookup_assign_ne _ _ _ _ hne
    · rfl

theorem lookup_foldl_applyProperty_frame (c : JSObject) (l : List String) (ps : JSObject)
    (a : String) (h : a ∉ l ∨ c.lookup a = none) :
    (l.foldl (applyProperty c) ps).lookup a = ps.lookup a := by
  induction l generalizing ps with
  | nil => rfl
  | cons q rest ih =>
    simp only [List.foldl_cons]
    have h1 : a ∉ rest ∨ c.lookup a = none := by
      rcases h with h | h
      · exact Or.inl (fun hm => h (List.mem_cons_of_mem _ hm))
      · exact Or.inr h
    have h2 : a ≠ q ∨ c.lookup a = none := by
      rcases h with h | h
      · exact Or.inl (fun e => h (e ▸ List.mem_cons_self _ _))
      · exact Or.inr h
    rw [ih _ h1, lookup_applyProperty_frame _ _ _ _ h2]

theorem lookup_applyProperty_self (c ps : JSObject) (prop v : String)
    (h : c.lookup prop = some v) :
    ((applyProperty c ps prop).lookup prop).getD "" = v := by
  unfold applyProperty
  rw [h]
  simp only
  split
  · rw [lookup_assign_self]; rfl
  · next hne =>
    have : ¬ (v != (List.lookup prop ps).getD "") = true := hne
    simp at this
    exact this.symm

theorem lookup_foldl_applyProperty_self (c : JSObject) (l : List String) (ps : JSObject)
    (prop v : String) (hmem : prop ∈ l) (h : c.lookup prop = some v) :
    ((l.foldl (applyProperty c) ps).lookup prop).getD "" = v := by
  induction l generalizing ps with
  | nil => simp at hmem
  | cons q rest ih =>
    simp only [List.foldl_cons]
    by_cases hr : prop ∈ rest
    · exact ih _ hr
    · have hq : prop = q := by
        rcases List.mem_cons.mp hmem with h0 | h0
        · exact h0
        · exact absurd h0 hr
      subst hq
      rw [lookup_foldl_applyProperty_frame _ _ _ _ (Or.inl hr)]
      exact lookup_applyProperty_self _ _ _ _ h

theorem foldl_applyProperty_stable (c : JSObject) (l : List String) (ps : JSObject)
    (h : ∀ prop ∈ l, ∀ v, c.lookup prop = some v → (ps.lookup prop).getD "" = v) :
    l.foldl (applyProperty c) ps = ps := by
  induction l with
  | nil => rfl
  | cons q rest ih =>
    simp only [List.foldl_cons]
    have hq : applyProperty c ps q = ps := by
      unfold applyProperty
      cases hc : c.lookup q with
      | none => rfl
      | some v =>
        have := h q (List.mem_cons_self _ _) v hc
        simp [this]
    rw [hq]
    exact ih (fun prop hp => h prop (List.mem_cons_of_mem _ hp))

/-- Reading a property from the transport record of an entry. -/
theorem lookup_toObject_properties (e : Entry) (a : String) :
    e.toObject.properties.lookup a
      = if a ∈ properties then some (e.getProperty a) else e.properties.lookup a := by
  unfold Entry.toObject
  simp only [lookup_append]
  by_cases h : a ∈ properties
  · rw [if_pos h]
    have : (properties.map (fun name => (name, e.getProperty name))).lookup a
        = some (e.getProperty a) := by
      simp only [properties, List.mem_cons, List.mem_singleton, List.not_mem_nil, or_false]
        at h
      rcases h with h | h | h <;> subst h <;> simp [properties, lookup_cons_eq]
    rw [this]; rfl
  · rw [if_neg h]
    have : (properties.map (fun name => (name, e.getProperty name))).lookup a = none := by
      rw [lookup_eq_none_iff_not_mem_keys]
      simp only [keys, List.map_map]
      intro hm
      apply h
      simpa using hm
    rw [this]
    simp only [Option.orElse]
    exact lookup_filter_key (fun k => decide (k ∉ properties)) _ _ (decide_eq_true h)

/-! ## The three loops of `entries.update` on the maps they change -/

theorem hasOwnProperty_ok (o : JSObject) (k : String) (h : shadowsHasOwnProperty o = false) :
    hasOwnProperty o k = .ok (decide (k ∈ keys o)) := by
  unfold hasOwnProperty; rw [h]; rfl

theorem hasOwnProperty_error (o : JSObject) (k : String) (h : shadowsHasOwnProperty o = true) :
    hasOwnProperty o k = .error .typeError := by
  unfold hasOwnProperty; rw [h]; rfl

theorem ne_nil_of_shadows (o : JSObject) (h : shadowsHasOwnProperty o = true) : o ≠ [] := by
  intro e
  subst e
  simp [shadowsHasOwnProperty, keys] at h

theorem forEach_ok {α : Type} (step : Entry → α → Except JSError Entry)
    (g : Entry → α → Entry) (l : List α) (e : Entry)
    (h : ∀ e0 : Entry, ∀ x ∈ l, step e0 x = .ok (g e0 x)) :
    forEach step l e = (l.foldl g e, none) := by
  induction l generalizing e with
  | nil => rfl
  | cons x rest ih =>
    simp only [forEach, h e x (List.mem_cons_self _ _), List.foldl_cons]
    exact ih _ (fun e0 y hy => h e0 y (List.mem_cons_of_mem _ hy))

theorem forEach_error {α : Type} (step : Entry → α → Except JSError Entry)
    (x : α) (rest : List α) (e : Entry) (err : JSError) (h : step e x = .error err) :
    forEach step (x :: rest) e = (e, some err) := by
  simp only [forEach, h]

theorem forEach_error_of_ne_nil {α : Type} (step : Entry → α → Except JSError Entry)
    (l : List α) (e : Entry) (err : JSError) (hl : l ≠ [])
    (h : ∀ e0 : Entry, ∀ x : α, step e0 x = .error err) :
    forEach step l e = (e, some err) := by
  cases l with
  | nil => exact absurd rfl hl
  | cons x rest => exact forEach_error step x rest e err (h e x)

theorem foldl_properties {α : Type} (f : JSObject → α → JSObject) (l : List α) (e : Entry) :
    l.foldl (fun e0 x => ({ e0 with properties := f e0.properties x } : Entry)) e
      = { e with properties := l.foldl f e.properties } := by
  induction l generalizing e with
  | nil => rfl
  | cons x rest ih => simp only [List.foldl_cons]; rw [ih]

theorem foldl_meta {α : Type} (f : JSObject → α → JSObject) (l : List α) (e : Entry) :
    l.foldl (fun e0 x => ({ e0 with meta := f e0.meta x } : Entry)) e
      = { e with meta := l.foldl f e.meta } := by
  induction l generalizing e with
  | nil => rfl
  | cons x rest ih => simp only [List.foldl_cons]; rw [ih]

theorem propertyStep_ok (c : JSObject) (e : Entry) (p : String)
    (h : shadowsHasOwnProperty c = false) :
    propertyStep c e p = .ok { e with properties := applyProperty c e.properties p } := by
  unfold propertyStep applyProperty
  rw [hasOwnProperty_ok c p h]
  cases hl : c.lookup p with
  | none => rfl
  | some v =>
    have hown : decide (p ∈ keys c) = true := by
      rw [decide_eq_true_iff, ← lookup_isSome_iff_mem_keys, hl]; rfl
    simp only [hown, Bool.true_and, Entry.getProperty, Entry.setProperty]
    split <;> rfl

theorem metaStep_ok (o : JSObject) (e : Entry) (item : String × String)
    (h : shadowsHasOwnProperty o = false) (hmem : item.1 ∈ keys o) :
    metaStep o e item = .ok { e with meta := applyItem e.meta item } := by
  unfold metaStep applyItem applicable
  rw [hasOwnProperty_ok o item.1 h]
  simp only [decide_eq_true hmem, if_true, Entry.getMeta, Entry.setMeta]
  by_cases h1 : decide ((metaKeyOf item.1).length > 0) = true
  · by_cases h2 : decide ((trim item.2).length > 0) = true
    · simp only [h1, h2, Bool.true_and, Bool.and_self, if_true]
      by_cases h3 : some (trim item.2) = List.lookup (metaKeyOf item.1) e.meta
      · have : (some (trim item.2) != List.lookup (metaKeyOf item.1) e.meta) = false := by
          simp [h3]
        simp only [this, Bool.false_eq_true, if_false]
        rw [assign_of_lookup _ _ _ h3.symm]
      · have : (some (trim item.2) != List.lookup (metaKeyOf item.1) e.meta) = true := by
          simpa using h3
        simp only [this, if_true]
    · simp [h1, h2]
  · simp [h1]

/-- The effect of one key of the snapshot on the metadata map. -/
theorem removedStep_ok (s prev : JSObject) (e : Entry) (item : String × String)
    (h : shadowsHasOwnProperty s = false) :
    removedStep s prev e item
      = .ok { e with meta := (if kept s prev item.1 then e.meta else remove item.1 e.meta) } := by
  unfold removedStep kept
  rw [hasOwnProperty_ok s item.1 h]
  simp only [Entry.deleteMeta]
  by_cases hc : (decide (item.1 ∈ keys s) && !(jsIn item.1 prev)) = true
  · simp [hc]
  · simp only [hc]
    simp

theorem foldl_remove_eq_filter (c : String → Bool) (l : JSObject) (m : JSObject) :
    l.foldl (fun m0 item => if c item.1 then m0 else remove item.1 m0) m
      = m.filter (fun p => !(decide (p.1 ∈ keys l) && !(c p.1))) := by
  induction l generalizing m with
  | nil => simp [keys]
  | cons q rest ih =>
    simp only [List.foldl_cons]
    rw [ih]
    by_cases hc : c q.1 = true
    · simp only [hc, if_true]
      apply List.filter_congr
      intro p _
      by_cases hp : p.1 = q.1
      · rw [hp]; simp [keys, hc]
      · have hb : (p.1 == q.1) = false := by simpa using hp
        simp [keys, hp, hb]
    · rw [if_neg hc]
      simp only [remove, List.filter_filter]
      apply List.filter_congr
      intro p _
      by_cases hp : p.1 = q.1
      · simp [keys, hp, hc]
      · have hb : (p.1 == q.1) = false := by simpa using hp
        have hb2 : (p.1 != q.1) = true := by simpa using hp
        simp [keys, hp, hb, hb2]

theorem foldl_removed (s prev : JSObject) (l : JSObject) (e : Entry) :
    l.foldl (fun e0 item => ({ e0 with meta :=
        (if kept s prev item.1 then e0.meta else remove item.1 e0.meta) } : Entry)) e
      = { e with meta :=
          (e.meta.filter (fun p => !(decide (p.1 ∈ keys l) && !(kept s prev p.1)))) } := by
  have h := foldl_meta
    (fun m0 (item : String × String) => if kept s prev item.1 then m0 else remove item.1 m0) l e
  rw [← foldl_remove_eq_filter (kept s prev)]
  exact h

theorem mem_keys_of_mem (o : JSObject) (item : String × String) (h : item ∈ o) :
    item.1 ∈ keys o :=
  List.mem_map_of_mem _ h

theorem toObject_meta (e : Entry) : e.toObject.meta = e.meta := rfl

theorem methodsIntact_iff (e : Entry) (arg : UpdateArg) :
    methodsIntact e arg = true
      ↔ shadowsHasOwnProperty (arg.changed.getD []) = false
        ∧ shadowsHasOwnProperty (arg.nestedChanges.getD []) = false
        ∧ shadowsHasOwnProperty e.meta = false := by
  unfold methodsIntact
  simp [Bool.and_eq_true, and_assoc]

/-- When no `hasOwnProperty` is hidden, the handler returns the record of the
entry the three loops leave behind. -/
theorem entriesUpdate_of_intact (e : Entry) (arg : UpdateArg)
    (h : methodsIntact e arg = true) :
    entriesUpdate e arg = (updatedEntry e arg, .ok (updatedEntry e arg).toObject) := by
  obtain ⟨hc, hn, hm⟩ := (methodsIntact_iff e arg).mp h
  have h1 := forEach_ok (propertyStep (arg.changed.getD []))
    (fun e0 p => { e0 with properties := applyProperty (arg.changed.getD []) e0.properties p })
    properties e (fun e0 p _ => propertyStep_ok _ e0 p hc)
  rw [foldl_properties] at h1
  have h2 := fun e1 : Entry => forEach_ok (metaStep (arg.nestedChanges.getD []))
    (fun e0 item => { e0 with meta := applyItem e0.meta item })
    (arg.nestedChanges.getD []) e1
    (fun e0 item hi => metaStep_ok _ e0 item hn (mem_keys_of_mem _ item hi))
  have h3 := fun e2 : Entry => forEach_ok (removedStep e.meta arg.previousAttributesMeta)
    (fun e0 item => { e0 with meta :=
      (if kept e.meta arg.previousAttributesMeta item.1 then e0.meta
        else remove item.1 e0.meta) })
    e.meta e2 (fun e0 item _ => removedStep_ok _ _ e0 item hm)
  unfold entriesUpdate
  simp only [toObject_meta, h1, h2, h3, foldl_meta, foldl_removed]
  have hfilter : ∀ m : JSObject,
      m.filter (fun p => !(decide (p.1 ∈ keys e.meta)
          && !(kept e.meta arg.previousAttributesMeta p.1)))
        = m.filter (fun p => kept e.meta arg.previousAttributesMeta p.1) := by
    intro m
    apply List.filter_congr
    intro p _
    unfold kept
    by_cases hp : p.1 ∈ keys e.meta <;> simp [hp]
  simp only [hfilter]
  rfl

/-- When one of the three objects hides `hasOwnProperty`, the handler raises
and assigns no `returnValue`. -/
theorem entriesUpdate_raises (e : Entry) (arg : UpdateArg)
    (h : methodsIntact e arg = false) :
    (entriesUpdate e arg).2 = .error .typeError := by
  by_cases hc : shadowsHasOwnProperty (arg.changed.getD []) = true
  · have h1 : forEach (propertyStep (arg.changed.getD [])) properties e
        = (e, some .typeError) := by
      apply forEach_error_of_ne_nil _ _ _ _ (by decide)
      intro e0 p
      unfold propertyStep
      rw [hasOwnProperty_error _ _ hc]
    unfold entriesUpdate
    simp only [h1]
  · have hc0 : shadowsHasOwnProperty (arg.changed.getD []) = false := by
      simpa using hc
    have h1 := forEach_ok (propertyStep (arg.changed.getD []))
      (fun e0 p => { e0 with properties := applyProperty (arg.changed.getD []) e0.properties p })
      properties e (fun e0 p _ => propertyStep_ok _ e0 p hc0)
    by_cases hn : shadowsHasOwnProperty (arg.nestedChanges.getD []) = true
    · have h2 : ∀ e1 : Entry,
          forEach (metaStep (arg.nestedChanges.getD [])) (arg.nestedChanges.getD []) e1
            = (e1, some .typeError) := by
        intro e1
        apply forEach_error_of_ne_nil _ _ _ _ (ne_nil_of_shadows _ hn)
        intro e0 item
        unfold metaStep
        rw [hasOwnProperty_error _ _ hn]
      unfold entriesUpdate
      simp only [h1, h2]
    · have hn0 : shadowsHasOwnProperty (arg.nestedChanges.getD []) = false := by
        simpa using hn
      have hm : shadowsHasOwnProperty e.meta = true := by
        by_contra hm
        have hm0 : shadowsHasOwnProperty e.meta = false := by simpa using hm
        rw [(methodsIntact_iff e arg).mpr ⟨hc0, hn0, hm0⟩] at h
        exact Bool.noConfusion h
      have h2 := fun e1 : Entry => forEach_ok (metaStep (arg.nestedChanges.getD []))
        (fun e0 item => { e0 with meta := applyItem e0.meta item })
        (arg.nestedChanges.getD []) e1
        (fun e0 item hi => metaStep_ok _ e0 item hn0 (mem_keys_of_mem _ item hi))
      have h3 : ∀ e2 : Entry,
          forEach (removedStep e.meta arg.previousAttributesMeta) e.meta e2
            = (e2, some .typeError) := by
        intro e2
        apply forEach_error_of_ne_nil _ _ _ _ (ne_nil_of_shadows _ hm)
        intro e0 item
        unfold removedStep
        rw [hasOwnProperty_error _ _ hm]
      unfold entriesUpdate
      simp only [toObject_meta, h1, h2, h3]


/-- The outcome of the handler in full: the first object that hides
`hasOwnProperty` ends the handler with a `TypeError`, after the loops before it
have mutated the entry; when none does, the record of the updated entry is
returned. -/
theorem entriesUpdate_eq (e : Entry) (arg : UpdateArg) :
    entriesUpdate e arg =
      if shadowsHasOwnProperty (arg.changed.getD []) then (e, .error .typeError)
      else if shadowsHasOwnProperty (arg.nestedChanges.getD []) then
        ({ e with properties :=
            properties.foldl (applyProperty (arg.changed.getD [])) e.properties },
          .error .typeError)
      else if shadowsHasOwnProperty e.meta then
        ({ e with
            properties := properties.foldl (applyProperty (arg.changed.getD [])) e.properties
            meta := (arg.nestedChanges.getD []).foldl applyItem e.meta },
          .error .typeError)
      else (updatedEntry e arg, .ok (updatedEntry e arg).toObject) := by
  by_cases hc : shadowsHasOwnProperty (arg.changed.getD []) = true
  · rw [if_pos hc]
    have h1 : forEach (propertyStep (arg.changed.getD [])) properties e
        = (e, some .typeError) := by
      apply forEach_error_of_ne_nil _ _ _ _ (by decide)
      intro e0 p
      unfold propertyStep
      rw [hasOwnProperty_error _ _ hc]
    unfold entriesUpdate
    simp only [h1]
  · rw [if_neg hc]
    have hc0 : shadowsHasOwnProperty (arg.changed.getD []) = false := by
      simpa using hc
    have h1 := forEach_ok (propertyStep (arg.changed.getD []))
      (fun e0 p => { e0 with properties := applyProperty (arg.changed.getD []) e0.properties p })
      properties e (fun e0 p _ => propertyStep_ok _ e0 p hc0)
    rw [foldl_properties] at h1
    by_cases hn : shadowsHasOwnProperty (arg.nestedChanges.getD []) = true
    · rw [if_pos hn]
      have h2 : ∀ e1 : Entry,
          forEach (metaStep (arg.nestedChanges.getD [])) (arg.nestedChanges.getD []) e1
            = (e1, some .typeError) := by
        intro e1
        apply forEach_error_of_ne_nil _ _ _ _ (ne_nil_of_shadows _ hn)
        intro e0 item
        unfold metaStep
        rw [hasOwnProperty_error _ _ hn]
      unfold entriesUpdate
      simp only [h1, h2]
    · rw [if_neg hn]
      have hn0 : shadowsHasOwnProperty (arg.nestedChanges.getD []) = false := by
        simpa using hn
      have h2 := fun e1 : Entry => forEach_ok (metaStep (arg.nestedChanges.getD []))
        (fun e0 item => { e0 with meta := applyItem e0.meta item })
        (arg.nestedChanges.getD []) e1
        (fun e0 item hi => metaStep_ok _ e0 item hn0 (mem_keys_of_mem _ item hi))
      by_cases hm : shadowsHasOwnProperty e.meta = true
      · rw [if_pos hm]
        have h3 : ∀ e2 : Entry,
            forEach (removedStep e.meta arg.previousAttributesMeta) e.meta e2
              = (e2, some .typeError) := by
          intro e2
          apply forEach_error_of_ne_nil _ _ _ _ (ne_nil_of_shadows _ hm)
          intro e0 item
          unfold removedStep
          rw [hasOwnProperty_error _ _ hm]
        unfold entriesUpdate
        simp only [toObject_meta, h1, h2, h3, foldl_meta]
      · rw [if_neg hm]
        have hm0 : shadowsHasOwnProperty e.meta = false := by simpa using hm
        exact entriesUpdate_of_intact e arg ((methodsIntact_iff e arg).mpr ⟨hc0, hn0, hm0⟩)

/-! ## Idempotence of `entries.update` -/

theorem kept_of_jsIn (s prev : JSObject) (k : String) (h : jsIn k prev = true) :
    kept s prev k = true := by
  unfold kept; simp [h]

theorem jsIn_of_kept (s prev : JSObject) (k : String) (hk : k ∈ keys s)
    (h : kept s prev k = true) : jsIn k prev = true := by
  unfold kept at h
  simpa [hk] using h

theorem jsIn_of_mem_keys (k : String) (o : JSObject) (h : k ∈ keys o) : jsIn k o = true := by
  unfold jsIn; simp [h]

theorem mem_keys_filter (f : String → Bool) (o : JSObject) (a : String) :
    a ∈ keys (o.filter (fun p => f p.1)) ↔ a ∈ keys o ∧ f a = true := by
  simp only [keys, List.mem_map, List.mem_filter]
  constructor
  · rintro ⟨p, ⟨hp, hf⟩, rfl⟩; exact ⟨⟨p, hp, rfl⟩, hf⟩
  · rintro ⟨⟨p, hp, rfl⟩, hf⟩; exact ⟨p, ⟨hp, hf⟩, rfl⟩

/-- A metadata key of the updated entry was a key before or is written by an
applicable item. -/
theorem mem_keys_updatedEntry (e : Entry) (arg : UpdateArg) (a : String)
    (h : a ∈ keys (updatedEntry e arg).meta) :
    a ∈ keys e.meta
      ∨ ∃ item ∈ arg.nestedChanges.getD [], applicable item = true ∧ metaKeyOf item.1 = a := by
  unfold updatedEntry at h
  rw [mem_keys_filter (kept e.meta arg.previousAttributesMeta)] at h
  exact (mem_keys_foldl_applyItem _ _ _).mp h.1

/-- When every applicable item stands for a key that is `in`
`previousAttributes.meta`, the three loops change nothing when run again on
their own result. -/
theorem updatedEntry_idem (e : Entry) (arg : UpdateArg)
    (h : ∀ item ∈ arg.nestedChanges.getD [], applicable item = true →
      jsIn (metaKeyOf item.1) arg.previousAttributesMeta = true) :
    updatedEntry (updatedEntry e arg) arg = updatedEntry e arg := by
  unfold updatedEntry
  simp only [Entry.mk.injEq, true_and]
  constructor
  · apply foldl_applyProperty_stable
    intro prop hp v hv
    exact lookup_foldl_applyProperty_self _ _ _ _ _ hp hv
  · rw [foldl_applyItem_filter_comm (kept e.meta arg.previousAttributesMeta) _ _
      (fun item hi ha => kept_of_jsIn _ _ _ (h item hi ha)), foldl_applyItem_idem]
    rw [List.filter_eq_self]
    intro p hp
    apply kept_of_jsIn
    rw [List.mem_filter] at hp
    obtain ⟨hp1, hp2⟩ := hp
    have hk := mem_keys_of_mem _ p hp1
    rw [mem_keys_foldl_applyItem] at hk
    rcases hk with hk | ⟨item, hi, ha, hkey⟩
    · exact jsIn_of_kept _ _ _ hk hp2
    · rw [← hkey]; exact h item hi ha

/-- When some applicable item of `nestedChanges` stands for a key that is not
`in` `previousAttributes.meta`, running the three loops again changes the
metadata. -/
theorem updatedEntry_not_idem (e : Entry) (arg : UpdateArg) (item : String × String)
    (hi : item ∈ arg.nestedChanges.getD []) (ha : applicable item = true)
    (hn : jsIn (metaKeyOf item.1) arg.previousAttributesMeta = false) :
    updatedEntry (updatedEntry e arg) arg ≠ updatedEntry e arg := by
  intro heq
  have hmeta := congrArg (fun x => keys x.meta) heq
  simp only at hmeta
  have hkept_false : ∀ s : JSObject, metaKeyOf item.1 ∈ keys s →
      kept s arg.previousAttributesMeta (metaKeyOf item.1) = false := by
    intro s hs
    unfold kept
    simp [hs, hn]
  have hkept_true : ∀ s : JSObject, metaKeyOf item.1 ∉ keys s →
      kept s arg.previousAttributesMeta (metaKeyOf item.1) = true := by
    intro s hs
    unfold kept
    simp [hs]
  have hin : ∀ s : JSObject,
      metaKeyOf item.1 ∈ keys ((arg.nestedChanges.getD []).foldl applyItem s) :=
    fun s => (mem_keys_foldl_applyItem _ _ _).mpr (Or.inr ⟨item, hi, ha, rfl⟩)
  have hchar : ∀ e0 : Entry, metaKeyOf item.1 ∈ keys (updatedEntry e0 arg).meta
      ↔ metaKeyOf item.1 ∉ keys e0.meta := by
    intro e0
    unfold updatedEntry
    rw [mem_keys_filter (kept e0.meta arg.previousAttributesMeta)]
    constructor
    · rintro ⟨_, hk⟩ hs
      rw [hkept_false _ hs] at hk
      exact Bool.false_ne_true hk
    · intro hs
      exact ⟨hin _, hkept_true _ hs⟩
  have h1 := hchar (updatedEntry e arg)
  rw [hmeta] at h1
  exact (iff_not_self h1)

/-- C1, the counterexample: on the entry created with the title "Bank" and no
metadata, the change-set that sets `username` and adds the metadata key `url`
with an empty `previousAttributes.meta` returns a record with `url` the first
time and a record without `url` the second time. -/
theorem update_twice_differs :
    (entriesUpdate
        (entriesUpdate ⟨"e1", [("title", "Bank")], []⟩
          ⟨"e1", some [("username", "alice")], some [("meta.url", "bank.example")], []⟩).1
        ⟨"e1", some [("username", "alice")], some [("meta.url", "bank.example")], []⟩).2
      ≠ (entriesUpdate ⟨"e1", [("title", "Bank")], []⟩
          ⟨"e1", some [("username", "alice")], some [("meta.url", "bank.example")], []⟩).2 := by
  decide

/-- C1, as amended: when none of `changed`, `nestedChanges`,
`previousAttributes.meta` and the metadata of the entry has an own key named
`hasOwnProperty`, and every item of `nestedChanges` whose trimmed key and value
are both non-empty stands for an own key of `previousAttributes.meta`, the
handler returns a record, and applying the change-set a second time to the
resulting entry leaves the entry as it is and returns the same record. -/
theorem update_idempotent (e : Entry) (arg : UpdateArg)
    (hi : methodsIntact e arg = true)
    (hp : shadowsHasOwnProperty arg.previousAttributesMeta = false)
    (h : ∀ item ∈ arg.nestedChanges.getD [], applicable item = true →
      metaKeyOf item.1 ∈ keys arg.previousAttributesMeta) :
    ∃ r : EntryRecord,
      entriesUpdate e arg = ((entriesUpdate e arg).1, .ok r)
      ∧ entriesUpdate (entriesUpdate e arg).1 arg = ((entriesUpdate e arg).1, .ok r) := by
  have h1 := entriesUpdate_of_intact e arg hi
  obtain ⟨hc, hn, hm⟩ := (methodsIntact_iff e arg).mp hi
  have hm2 : shadowsHasOwnProperty (updatedEntry e arg).meta = false := by
    unfold shadowsHasOwnProperty
    rw [decide_eq_false_iff_not]
    intro hmem
    rcases mem_keys_updatedEntry e arg _ hmem with hk | ⟨item, hitem, ha, hkey⟩
    · unfold shadowsHasOwnProperty at hm
      exact (of_decide_eq_false hm) hk
    · unfold shadowsHasOwnProperty at hp
      apply of_decide_eq_false hp
      rw [← hkey]
      exact h item hitem ha
  have hi2 : methodsIntact (updatedEntry e arg) arg = true :=
    (methodsIntact_iff _ arg).mpr ⟨hc, hn, hm2⟩
  have h2 := entriesUpdate_of_intact (updatedEntry e arg) arg hi2
  rw [updatedEntry_idem e arg (fun item hitem ha => jsIn_of_mem_keys _ _ (h item hitem ha))] at h2
  refine ⟨(updatedEntry e arg).toObject, ?_, ?_⟩
  · rw [h1]
  · rw [h1, h2]

/-- C1, witness: a change-set that rewrites the metadata key `url`, which
`previousAttributes.meta` lists. -/
theorem update_idempotent_witness :
    (methodsIntact ⟨"e1", [("title", "Bank")], [("url", "old.example")]⟩
        ⟨"e1", some [("username", "alice")], some [("meta.url", " bank.example ")],
          [("url", "old.example")]⟩ = true
      ∧ shadowsHasOwnProperty [("url", "old.example")] = false
      ∧ ∀ item ∈ (some [("meta.url", " bank.example ")] : Option JSObject).getD [],
          applicable item = true → metaKeyOf item.1 ∈ keys [("url", "old.example")])
    ∧ ∃ r : EntryRecord,
      entriesUpdate ⟨"e1", [("title", "Bank")], [("url", "old.example")]⟩
          ⟨"e1", some [("username", "alice")], some [("meta.url", " bank.example ")],
            [("url", "old.example")]⟩
        = ((entriesUpdate ⟨"e1", [("title", "Bank")], [("url", "old.example")]⟩
            ⟨"e1", some [("username", "alice")], some [("meta.url", " bank.example ")],
              [("url", "old.example")]⟩).1, .ok r)
      ∧ entriesUpdate
          (entriesUpdate ⟨"e1", [("title", "Bank")], [("url", "old.example")]⟩
            ⟨"e1", some [("username", "alice")], some [("meta.url", " bank.example ")],
              [("url", "old.example")]⟩).1
          ⟨"e1", some [("username", "alice")], some [("meta.url", " bank.example ")],
            [("url", "old.example")]⟩
        = ((entriesUpdate ⟨"e1", [("title", "Bank")], [("url", "old.example")]⟩
            ⟨"e1", some [("username", "alice")], some [("meta.url", " bank.example ")],
              [("url", "old.example")]⟩).1, .ok r) :=
  ⟨by decide,
   update_idempotent ⟨"e1", [("title", "Bank")], [("url", "old.example")]⟩
    ⟨"e1", some [("username", "alice")], some [("meta.url", " bank.example ")],
      [("url", "old.example")]⟩ (by decide) (by decide) (by decide)⟩

/-! ## Metadata: deletion, addition and the frame -/

/-- C2, the failing input: the entry has the metadata keys `toString` and `b`,
`previousAttributes.meta` is empty, and nothing else is changed.  Both keys
are absent from `previousAttributes.meta`; `b` is deleted, `toString` is not,
because `"toString" in removedMetaList` is true for every plain object. -/
theorem update_keeps_inherited_name :
    "toString" ∈ keys (Entry.mk "e1" [("title", "Bank")] [("toString", "x"), ("b", "2")]).meta
    ∧ "toString" ∉ keys (UpdateArg.mk "e1" none none []).previousAttributesMeta
    ∧ (entriesUpdate ⟨"e1", [("title", "Bank")], [("toString", "x"), ("b", "2")]⟩
        ⟨"e1", none, none, []⟩).2
      = .ok { id := "e1"
              properties := [("title", "Bank"), ("username", ""), ("password", "")]
              meta := [("toString", "x")]
              parentID := none } := by
  decide

/-- When the handler returns, a metadata key the entry had before the update
and that is not `in` `previousAttributes.meta` is absent from the record,
whatever `changed` and `nestedChanges` contain. -/
theorem update_deletes_removed_meta (e : Entry) (arg : UpdateArg) (k : String)
    (hi : methodsIntact e arg = true)
    (hk : k ∈ keys e.meta) (hn : jsIn k arg.previousAttributesMeta = false) :
    ∃ r : EntryRecord, (entriesUpdate e arg).2 = .ok r ∧ r.meta.lookup k = none := by
  refine ⟨(updatedEntry e arg).toObject, by rw [entriesUpdate_of_intact e arg hi], ?_⟩
  rw [toObject_meta]
  unfold updatedEntry
  apply lookup_filter_key_none (kept e.meta arg.previousAttributesMeta)
  unfold kept
  simp [hk, hn]

/-- C3, the failing input: `nestedChanges` is
`{hasOwnProperty: "v", "meta.url": "u"}` on an entry without metadata.  The
item `"meta.url"` meets every condition of the claim, and the handler raises a
`TypeError` at line 194 and returns no record. -/
theorem update_adds_new_meta_raises :
    (("meta." ++ "url", "u") ∈
        (some [("hasOwnProperty", "v"), ("meta.url", "u")] : Option JSObject).getD []
      ∧ trim "url" ≠ "" ∧ trim "u" ≠ ""
      ∧ (∀ item ∈ (some [("hasOwnProperty", "v"), ("meta.url", "u")] : Option JSObject).getD [],
          metaKeyOf item.1 = trim "url" → item = ("meta." ++ "url", "u"))
      ∧ trim "url" ∉ keys (Entry.mk "e1" [("title", "Bank")] []).meta)
    ∧ entriesUpdate ⟨"e1", [("title", "Bank")], []⟩
        ⟨"e1", none, some [("hasOwnProperty", "v"), ("meta.url", "u")], []⟩
      = (⟨"e1", [("title", "Bank")], []⟩, .error .typeError) := by
  decide

/-- When the handler returns: a `nestedChanges` item `"meta." ++ k` with value
`v`, both non-empty after trimming, that is the only item standing for the key
`trim k`, where `trim k` is not a metadata key of the entry before the update,
gives `meta[trim k] = trim v` in the record returned, for every
`previousAttributes.meta`. -/
theorem update_adds_new_meta (e : Entry) (arg : UpdateArg) (k v : String)
    (hi : methodsIntact e arg = true)
    (hmem : ("meta." ++ k, v) ∈ arg.nestedChanges.getD [])
    (hk : trim k ≠ "") (hv : trim v ≠ "")
    (huniq : ∀ item ∈ arg.nestedChanges.getD [],
      metaKeyOf item.1 = trim k → item = ("meta." ++ k, v))
    (hnew : trim k ∉ keys e.meta) :
    ∃ r : EntryRecord,
      (entriesUpdate e arg).2 = .ok r ∧ r.meta.lookup (trim k) = some (trim v) := by
  refine ⟨(updatedEntry e arg).toObject, by rw [entriesUpdate_of_intact e arg hi], ?_⟩
  rw [toObject_meta]
  unfold updatedEntry
  show List.lookup (trim k) (List.filter _ _) = some (trim v)
  have hkey : metaKeyOf ("meta." ++ k, v).1 = trim k := metaKeyOf_meta_append k
  have happ : applicable ("meta." ++ k, v) = true := by
    rw [applicable_iff, hkey]; exact ⟨hk, hv⟩
  have hkept : kept e.meta arg.previousAttributesMeta (trim k) = true := by
    unfold kept
    simp [hnew]
  rw [lookup_filter_key (kept e.meta arg.previousAttributesMeta) _ _ hkept]
  have := lookup_foldl_applyItem_unique (arg.nestedChanges.getD []) e.meta ("meta." ++ k, v)
    happ (fun item hitem hkk => huniq item hitem (hkk.trans hkey)) (Or.inl hmem)
  rw [hkey] at this
  exact this

/-- C5, the failing input: the entry has the metadata key `note`, which
`previousAttributes.meta` lists and no `nestedChanges` key stands for;
`nestedChanges` is `{hasOwnProperty: "v"}`.  The handler raises a `TypeError`
at line 194 and returns no record. -/
theorem update_preserves_untouched_meta_raises :
    ("note" ∈ keys (Entry.mk "e1" [("title", "Bank")] [("note", "n")]).meta
      ∧ "note" ∈ keys (UpdateArg.mk "e1" none (some [("hasOwnProperty", "v")])
          [("note", "n")]).previousAttributesMeta
      ∧ ∀ item ∈ (some [("hasOwnProperty", "v")] : Option JSObject).getD [],
          metaKeyOf item.1 ≠ "note")
    ∧ entriesUpdate ⟨"e1", [("title", "Bank")], [("note", "n")]⟩
        ⟨"e1", none, some [("hasOwnProperty", "v")], [("note", "n")]⟩
      = (⟨"e1", [("title", "Bank")], [("note", "n")]⟩, .error .typeError) := by
  decide

/-- When the handler returns: a metadata key the entry had before the update,
that is present in `previousAttributes.meta` and that no `nestedChanges` key
stands for, is present in the record returned with the value it had before
the update. -/
theorem update_preserves_untouched_meta (e : Entry) (arg : UpdateArg) (k : String)
    (hi : methodsIntact e arg = true)
    (hk : k ∈ keys e.meta) (hprev : k ∈ keys arg.previousAttributesMeta)
    (hnone : ∀ item ∈ arg.nestedChanges.getD [], metaKeyOf item.1 ≠ k) :
    ∃ v r, e.meta.lookup k = some v
      ∧ (entriesUpdate e arg).2 = .ok r ∧ r.meta.lookup k = some v := by
  have hsome : (e.meta.lookup k).isSome = true := (lookup_isSome_iff_mem_keys _ _).mpr hk
  obtain ⟨v, hv⟩ := Option.isSome_iff_exists.mp hsome
  refine ⟨v, (updatedEntry e arg).toObject, hv, by rw [entriesUpdate_of_intact e arg hi], ?_⟩
  rw [toObject_meta]
  unfold updatedEntry
  show List.lookup k (List.filter _ _) = some v
  have hkept : kept e.meta arg.previousAttributesMeta k = true :=
    kept_of_jsIn _ _ _ (jsIn_of_mem_keys _ _ hprev)
  rw [lookup_filter_key (kept e.meta arg.previousAttributesMeta) _ _ hkept,
    lookup_foldl_applyItem_frame _ _ _ (fun item hitem _ => hnone item hitem)]
  exact hv

/-- C6, the failing input: the item `("hasOwnProperty", " ")` has a value that
is empty after trimming.  With the item the handler raises a `TypeError` at
line 194, before `url` is written, and returns no record; without the item it
returns the record with `url`. -/
theorem update_skips_empty_item_raises :
    trim " " = ""
    ∧ entriesUpdate ⟨"e1", [("title", "Bank")], []⟩
        ⟨"e1", none, some ([("meta.url", "u")] ++ ("hasOwnProperty", " ") :: []), []⟩
      = (⟨"e1", [("title", "Bank")], []⟩, .error .typeError)
    ∧ entriesUpdate ⟨"e1", [("title", "Bank")], []⟩
        ⟨"e1", none, some ([("meta.url", "u")] ++ []), []⟩
      = (⟨"e1", [("title", "Bank")], [("url", "u")]⟩,
          .ok { id := "e1"
                properties := [("title", "Bank"), ("username", ""), ("password", "")]
                meta := [("url", "u")]
                parentID := none }) := by
  decide

theorem shadowsHasOwnProperty_insert (before after : JSObject) (metaKey value : String)
    (hkey : metaKey ≠ "hasOwnProperty") :
    shadowsHasOwnProperty (before ++ (metaKey, value) :: after)
      = shadowsHasOwnProperty (before ++ after) := by
  unfold shadowsHasOwnProperty keys
  have hne : ¬ "hasOwnProperty" = metaKey := fun h => hkey h.symm
  simp [hne]

/-- A `nestedChanges` item whose key is not `hasOwnProperty` itself and whose
key is empty after removing `"meta."` and trimming, or whose value is empty
after trimming, is skipped: the handler has the same outcome, and leaves the
entry in the same state, as for the change-set without that item. -/
theorem update_skips_empty_item (e : Entry) (id : String) (changed : Option JSObject)
    (before after prev : JSObject) (metaKey value : String)
    (hkey : metaKey ≠ "hasOwnProperty")
    (h : metaKeyOf metaKey = "" ∨ trim value = "") :
    entriesUpdate e ⟨id, changed, some (before ++ (metaKey, value) :: after), prev⟩
      = entriesUpdate e ⟨id, changed, some (before ++ after), prev⟩ := by
  have hskip : ∀ m : JSObject, applyItem m (metaKey, value) = m := by
    intro m
    apply applyItem_neg
    rw [applicable_iff]
    rintro ⟨h1, h2⟩
    rcases h with h | h
    · exact h1 h
    · exact h2 h
  rw [entriesUpdate_eq, entriesUpdate_eq]
  unfold updatedEntry
  simp only [Option.getD_some, List.foldl_append, List.foldl_cons, hskip,
    shadowsHasOwnProperty_insert before after metaKey value hkey]

/-! ## Properties and the identifier -/

/-- C4, the failing input: `changed` is `{hasOwnProperty: "v", title: "New"}`
on the entry titled "Bank".  `title` is present in `changed` with the value
"New"; the handler raises a `TypeError` at line 187, returns no record, and the
title of the entry is still "Bank". -/
theorem update_properties_raises :
    "title" ∈ properties
    ∧ List.lookup "title" [("hasOwnProperty", "v"), ("title", "New")] = some "New"
    ∧ entriesUpdate ⟨"e1", [("title", "Bank")], []⟩
        ⟨"e1", some [("hasOwnProperty", "v"), ("title", "New")], none, []⟩
      = (⟨"e1", [("title", "Bank")], []⟩, .error .typeError)
    ∧ (entriesUpdate ⟨"e1", [("title", "Bank")], []⟩
        ⟨"e1", some [("hasOwnProperty", "v"), ("title", "New")], none, []⟩).1.getProperty
          "title" = "Bank" := by
  decide

/-- When the handler returns: each of `title`, `username` and `password` that
is present in `changed` has the value given in `changed`, in the entry and in
the record returned; every other property (a canonical one absent from
`changed`, and every non-canonical one) is stored as it was before; the
identifier is unchanged. -/
theorem update_properties (e : Entry) (arg : UpdateArg) (hi : methodsIntact e arg = true) :
    ∃ r : EntryRecord, (entriesUpdate e arg).2 = .ok r
    ∧ (∀ prop ∈ properties, ∀ v, (arg.changed.getD []).lookup prop = some v →
        (entriesUpdate e arg).1.getProperty prop = v ∧ r.properties.lookup prop = some v)
    ∧ (∀ prop, prop ∉ properties ∨ (arg.changed.getD []).lookup prop = none →
        (entriesUpdate e arg).1.properties.lookup prop = e.properties.lookup prop
        ∧ (entriesUpdate e arg).1.getProperty prop = e.getProperty prop
        ∧ r.properties.lookup prop = e.toObject.properties.lookup prop)
    ∧ (entriesUpdate e arg).1.id = e.id
    ∧ r.id = e.id := by
  refine ⟨(updatedEntry e arg).toObject, ?_, ?_, ?_, ?_, ?_⟩
  · rw [entriesUpdate_of_intact e arg hi]
  · intro prop hp v hv
    have h1 : (entriesUpdate e arg).1.getProperty prop = v := by
      rw [entriesUpdate_of_intact e arg hi]
      exact lookup_foldl_applyProperty_self _ _ _ _ _ hp hv
    refine ⟨h1, ?_⟩
    rw [entriesUpdate_of_intact e arg hi] at h1
    rw [lookup_toObject_properties, if_pos hp, h1]
  · intro prop hp
    have h1 : (updatedEntry e arg).properties.lookup prop = e.properties.lookup prop :=
      lookup_foldl_applyProperty_frame _ _ _ _ hp
    have h2 : (updatedEntry e arg).getProperty prop = e.getProperty prop := by
      unfold Entry.getProperty; rw [h1]
    rw [entriesUpdate_of_intact e arg hi]
    refine ⟨h1, h2, ?_⟩
    rw [lookup_toObject_properties, lookup_toObject_properties, h1, h2]
  · rw [entriesUpdate_of_intact e arg hi]; rfl
  · rfl

/-! ## `convertGroups` and `convertEntries` -/

theorem convertGroupsLoop_eq (gs : List Group) (parsed : List GroupRecord) :
    convertGroupsLoop gs parsed = parsed ++ gs.map parsedGroupOf := by
  induction gs generalizing parsed with
  | nil => simp [convertGroupsLoop]
  | cons g rest ih => simp [convertGroupsLoop, ih]

theorem convertGroups_eq_map (gs : List Group) : convertGroups gs = gs.map parsedGroupOf := by
  unfold convertGroups; rw [convertGroupsLoop_eq]; rfl

theorem parsedGroupOf_eq (g : Group) :
    parsedGroupOf g = GroupRecord.mk g.getID g.getTitle (convertGroups g.getGroups) := by
  cases g with
  | mk i t gs es =>
    simp [parsedGroupOf, Group.toObject, GroupRecord.setGroups, Group.getID, Group.getTitle,
      Group.getGroups, convertGroups]

mutual
theorem parsedGroupOf_withoutEntries :
    ∀ g : Group, parsedGroupOf (withoutEntries g) = parsedGroupOf g
  | .mk i t gs es => by
    rw [withoutEntries, parsedGroupOf_eq, parsedGroupOf_eq]
    simp only [Group.getID, Group.getTitle, Group.getGroups]
    rw [convertGroups_eq_map, convertGroups_eq_map, map_parsedGroupOf_withoutEntries gs]
theorem map_parsedGroupOf_withoutEntries :
    ∀ gs : List Group, (withoutEntriesList gs).map parsedGroupOf = gs.map parsedGroupOf
  | [] => by simp [withoutEntriesList]
  | g :: rest => by
    rw [withoutEntriesList, List.map_cons, List.map_cons, parsedGroupOf_withoutEntries g,
      map_parsedGroupOf_withoutEntries rest]
end

/-- C7: `convertGroups gs` maps every group, in order, to the record with the
identifier and title of the group and with `groups` equal to `convertGroups` of its
child groups; it has the length of `gs`; and it does not depend on the entries
of any group of the forest. -/
theorem convertGroups_spec (gs : List Group) :
    convertGroups gs
        = gs.map (fun g => GroupRecord.mk g.getID g.getTitle (convertGroups g.getGroups))
    ∧ (convertGroups gs).length = gs.length
    ∧ (∀ i : Nat, (convertGroups gs)[i]?
        = gs[i]?.map (fun g => GroupRecord.mk g.getID g.getTitle (convertGroups g.getGroups)))
    ∧ convertGroups (withoutEntriesList gs) = convertGroups gs := by
  have h1 : convertGroups gs
      = gs.map (fun g => GroupRecord.mk g.getID g.getTitle (convertGroups g.getGroups)) := by
    rw [convertGroups_eq_map]
    exact List.map_congr_left (fun g _ => parsedGroupOf_eq g)
  refine ⟨h1, ?_, ?_, ?_⟩
  · rw [h1, List.length_map]
  · intro i
    rw [h1, List.getElem?_map]
  · rw [convertGroups_eq_map, convertGroups_eq_map, map_parsedGroupOf_withoutEntries]

/-- C8: `convertEntries es p` maps every entry, in order, to the record
of that entry (identifier, properties, metadata) with `parentID` set to the
identifier of `p`; it has the length of `es`. -/
theorem convertEntries_spec (es : List Entry) (p : Group) :
    (convertEntries es p).length = es.length
    ∧ ∀ i : Nat, (convertEntries es p)[i]?
        = es[i]?.map (fun entry =>
            { id := entry.toObject.id
              properties := entry.toObject.properties
              meta := entry.toObject.meta
              parentID := some p.getID }) := by
  unfold convertEntries
  refine ⟨List.length_map _ _, ?_⟩
  intro i
  rw [List.getElem?_map]

/-! ## Lookups that find nothing -/

/-- C9, the failing input: the workspace holds the group `g1` with the entry
`e1`; `entries.find` is asked for `e404`.  The lookup finds nothing and the
handler raises a `TypeError` instead of answering with an absent result. -/
theorem entriesFind_raises :
    findEntryInGroups "e404" [Group.mk "g1" "Finance" [] [⟨"e1", [("title", "Bank")], []⟩]]
        = none
    ∧ entriesFind
        (fun id => findEntryInGroups id
          [Group.mk "g1" "Finance" [] [⟨"e1", [("title", "Bank")], []⟩]])
        ⟨none⟩ "e404"
      = Except.error JSError.typeError := by
  constructor <;> rfl

/-- Whenever the lookup finds no entry, `entries.find` raises. -/
theorem entriesFind_absent (findEntry : String → Option Entry) (e : Event) (arg : String)
    (h : findEntry arg = none) : entriesFind findEntry e arg = Except.error JSError.typeError := by
  unfold entriesFind; rw [h]

/-- C10, the failing input: the workspace holds the group `g1`; `entries.create`
is asked to create "Bank" under `g404`, which matches no group.  Whatever
`createEntry` does, the workspace is left as it was, and the `returnValue` of
the event is still unassigned: it has not been set to `null`. -/
theorem entriesCreate_leaves_event_unassigned
    (createEntry : List Group → Group → String → List Group × Entry) :
    findGroupInGroups "g404" [Group.mk "g1" "Finance" [] []] = none
    ∧ (entriesCreate (fun ws id => findGroupInGroups id ws) createEntry
        [Group.mk "g1" "Finance" [] []] ⟨none⟩ ⟨some "g404", "Bank"⟩).2.returnValue = none
    ∧ (entriesCreate (fun ws id => findGroupInGroups id ws) createEntry
        [Group.mk "g1" "Finance" [] []] ⟨none⟩ ⟨some "g404", "Bank"⟩).2.returnValue
        ≠ some Response.null
    ∧ (entriesCreate (fun ws id => findGroupInGroups id ws) createEntry
        [Group.mk "g1" "Finance" [] []] ⟨none⟩ ⟨some "g404", "Bank"⟩).1
      = [Group.mk "g1" "Finance" [] []] := by
  refine ⟨rfl, rfl, ?_, rfl⟩
  intro h
  exact Option.noConfusion h

/-- Whenever the request names no group that exists, `entries.create` leaves
the archive and the event as they were. -/
theorem entriesCreate_absent {σ : Type} (findGroup : σ → String → Option Group)
    (createEntry : σ → Group → String → σ × Entry) (archive : σ) (e : Event) (arg : CreateArg)
    (h : arg.parentID.bind (findGroup archive) = none) :
    entriesCreate findGroup createEntry archive e arg = (archive, e) := by
  unfold entriesCreate entriesCreateTry; rw [h]

end Buttercup
